import Mathlib

/-!
Verification of `Lib/fontTools/pens/freetypePen.py` (the `FreeTypePen` class).

Coordinates of path-command points are modelled as rationals (`ℚ`), matching
the real-valued coordinates of the pen interface.  Quantized device
coordinates are integers (`ℤ`, FreeType `FT_Pos` is a 64-bit signed long on
the platforms fontTools targets; its overflow is not relevant to any claim).
The `FT_Outline` count fields (`n_contours`, `n_points`, and each entry of
the `contours` end-index array) are built through `ctypes.c_short`, which
silently truncates to a 16-bit two's-complement value; this truncation is
modelled explicitly by `toInt16`.
-/

namespace FreeTypePen

/-- Point tag constants, from `freetypePen.py` lines 25-29
(`LINE = 0b00000001`, `CURVE = 0b00000011`, `OFFCURVE = 0b00000010`,
`QCURVE = 0b00000001`, `QOFFCURVE = 0b00000000`). -/
def LINE : ℕ := 1

/-- Constant `CURVE = 0b00000011`: on-curve cubic endpoint tag. -/
def CURVE : ℕ := 3

/-- Constant `OFFCURVE = 0b00000010`: cubic off-curve control tag. -/
def OFFCURVE : ℕ := 2

/-- Constant `QCURVE = 0b00000001`: on-curve quadratic endpoint tag. -/
def QCURVE : ℕ := 1

/-- Constant `QOFFCURVE = 0b00000000`: quadratic off-curve control tag. -/
def QOFFCURVE : ℕ := 0

/-- Source `Contour = collections.namedtuple('Contour', ('points', 'tags'))`:
a list of 2D points with a parallel list of tags. -/
structure Contour where
  points : List (ℚ × ℚ)
  tags : List ℕ
deriving DecidableEq, Repr

/-- Error raised when an append operation runs with no open contour.
In the Python source the failing operation is the `self.contours[-1]`
lookup on an empty list, which raises before any point is appended, so a
failing call leaves the accumulator's contour list unchanged. -/
inductive PenError where
  | noOpenContour
deriving DecidableEq, Repr

/-- Method `FreeTypePen._moveTo`: starts a new contour holding the single point
`pt` tagged `LINE`, appended after the existing contours. -/
def moveTo (cs : List Contour) (pt : ℚ × ℚ) : List Contour :=
  cs ++ [⟨[pt], [LINE]⟩]

/-- Method `FreeTypePen._lineTo`: appends `pt` tagged `LINE` to the last contour;
the `self.contours[-1]` lookup fails when no contour is open. -/
def lineTo (cs : List Contour) (pt : ℚ × ℚ) : Except PenError (List Contour) :=
  match cs.getLast? with
  | none => .error .noOpenContour
  | some c => .ok (cs.dropLast ++ [⟨c.points ++ [pt], c.tags ++ [LINE]⟩])

/-- Method `FreeTypePen._curveToOne`: appends the three points of one cubic
segment, tagged `OFFCURVE, OFFCURVE, CURVE`, to the last contour. -/
def curveToOne (cs : List Contour) (p1 p2 p3 : ℚ × ℚ) : Except PenError (List Contour) :=
  match cs.getLast? with
  | none => .error .noOpenContour
  | some c =>
      .ok (cs.dropLast ++ [⟨c.points ++ [p1, p2, p3], c.tags ++ [OFFCURVE, OFFCURVE, CURVE]⟩])

/-- Method `FreeTypePen._qCurveToOne`: appends the two points of one quadratic
segment, tagged `QOFFCURVE, QCURVE`, to the last contour. -/
def qCurveToOne (cs : List Contour) (p1 p2 : ℚ × ℚ) : Except PenError (List Contour) :=
  match cs.getLast? with
  | none => .error .noOpenContour
  | some c => .ok (cs.dropLast ++ [⟨c.points ++ [p1, p2], c.tags ++ [QOFFCURVE, QCURVE]⟩])

/-- Modelled from the spec: `fontTools.misc.roundTools.otRound`, used by
`FreeTypePen.outline` for quantization, is not under `src/`.  The spec
(§4.2) requires rounding to the nearest integer with ties rounded away
from zero. -/
def otRound (x : ℚ) : ℤ :=
  if 0 ≤ x then ⌊x + 1 / 2⌋ else -⌊-x + 1 / 2⌋

/-- The quantization applied per point in `FreeTypePen.outline` (line 126):
`otRound((point[i] + offset[i]) * scale[i] * 64)` independently for x, y. -/
def quantPoint (offset scale : ℚ × ℚ) (p : ℚ × ℚ) : ℤ × ℤ :=
  (otRound ((p.1 + offset.1) * scale.1 * 64), otRound ((p.2 + offset.2) * scale.2 * 64))

/-- Truncation through `ctypes.c_short`: 16-bit two's-complement wrap. -/
def toInt16 (n : ℤ) : ℤ :=
  (n + 2 ^ 15) % 2 ^ 16 - 2 ^ 15

/-- The contour-end index loop of `FreeTypePen.outline` (lines 131-135):
a running sum of contour point counts, recording `sum - 1` per contour. -/
def endsFrom (acc : ℤ) : List Contour → List ℤ
  | [] => []
  | c :: rest => (acc + c.points.length - 1) :: endsFrom (acc + c.points.length) rest

/-- Total number of accumulated points (`n_points` before the `c_short`
cast, line 122). -/
def sumLens (cs : List Contour) : ℕ :=
  (cs.map (fun c => c.points.length)).sum

/-- Record `FT_Outline` as assembled by `FreeTypePen.outline`
(lines 137-144).  `flags` is `FT_OUTLINE_EVEN_ODD_FILL = 0x2` or
`FT_OUTLINE_NONE = 0x0`. -/
structure FTOutline where
  nContours : ℤ
  nPoints : ℤ
  points : List (ℤ × ℤ)
  tags : List ℕ
  contourEnds : List ℤ
  flags : ℕ
deriving DecidableEq, Repr

/-- Method `FreeTypePen.outline(offset, scale, evenOdd)` (lines 111-144): flattens
the contours, quantizes every point with `quantPoint`, flattens the tags,
computes cumulative contour-end indices, and packages everything with the
counts passed through `ctypes.c_short` (`toInt16`).  The Python code
defaults `offset` to `(0, 0)` and `scale` to `(1.0, 1.0)`; callers here
pass those defaults explicitly. -/
def outlineFn (cs : List Contour) (offset scale : ℚ × ℚ) (evenOdd : Bool) : FTOutline :=
  { nContours := toInt16 cs.length
    nPoints := toInt16 (sumLens cs)
    points := (cs.flatMap (fun c => c.points)).map (quantPoint offset scale)
    tags := cs.flatMap (fun c => c.tags)
    contourEnds := (endsFrom 0 cs).map toInt16
    flags := if evenOdd then 2 else 0 }

/-- A bounding box in pixel units, `(xMin, yMin, xMax, yMax)`. -/
structure BBox where
  xMin : ℚ
  yMin : ℚ
  xMax : ℚ
  yMax : ℚ
deriving DecidableEq, Repr

/-- The canvas-sizing logic of `FreeTypePen.buffer` (lines 173-183): when
`contain` is set, the offset becomes `-min(offset, bboxMin)` per axis and
the width/height grow to at least the bounding-box size; then width and
height are scaled and rounded up with `math.ceil`.  Returns the final
offset and the integer `(width, height)` of the allocated bitmap. -/
def bufferSize (offset : ℚ × ℚ) (width height : ℚ) (scale : ℚ × ℚ) (contain : Bool)
    (bbox : BBox) : (ℚ × ℚ) × ℤ × ℤ :=
  let ox := offset.1
  let oy := offset.2
  let ox2 := if contain then -(min ox bbox.xMin) else ox
  let w2 := if contain then max width (bbox.xMax - bbox.xMin) else width
  let oy2 := if contain then -(min oy bbox.yMin) else oy
  let h2 := if contain then max height (bbox.yMax - bbox.yMin) else height
  ((ox2, oy2), ⌈w2 * scale.1⌉, ⌈h2 * scale.2⌉)

/-- The bounding box `bbox`, translated by the final offset, lies entirely
within the canvas `[0, w] × [0, h]` (pixel units, identity scale). -/
def bboxFits (bbox : BBox) (off : ℚ × ℚ) (w h : ℤ) : Prop :=
  0 ≤ bbox.xMin + off.1 ∧ bbox.xMax + off.1 ≤ (w : ℚ) ∧
    0 ≤ bbox.yMin + off.2 ∧ bbox.yMax + off.2 ≤ (h : ℚ)

/-- A rational `r` rounded as the nearest integer to `v` with ties away
from zero: every integer is at least as far from `v` as `r` is, and any
equally near integer has absolute value at most that of `r`. -/
def IsNearestAway (v : ℚ) (r : ℤ) : Prop :=
  (∀ m : ℤ, |v - r| ≤ |v - m|) ∧ ∀ m : ℤ, |v - m| = |v - r| → |m| ≤ |r|

/-- A contour with 32768 points, exceeding the 16-bit signed range of the
`FT_Outline` count fields. -/
def bigContour : Contour :=
  ⟨List.replicate 32768 ((0 : ℚ), (0 : ℚ)), List.replicate 32768 LINE⟩

/-- One outline segment, as consumed by the extent calculator: a line, a
quadratic Bézier, or a cubic Bézier, given by its control points. -/
inductive Seg where
  | line (p q : ℝ × ℝ)
  | quad (p c q : ℝ × ℝ)
  | cubic (p c1 c2 q : ℝ × ℝ)

/-- Control points of a segment, the endpoints included. -/
def Seg.ctrlPts : Seg → List (ℝ × ℝ)
  | .line p q => [p, q]
  | .quad p c q => [p, c, q]
  | .cubic p c1 c2 q => [p, c1, c2, q]

/-- Bézier evaluation of a segment at parameter `t`. -/
def Seg.eval : Seg → ℝ → ℝ × ℝ
  | .line p q, t =>
      ((1 - t) * p.1 + t * q.1, (1 - t) * p.2 + t * q.2)
  | .quad p c q, t =>
      ((1 - t) ^ 2 * p.1 + 2 * ((1 - t) * t) * c.1 + t ^ 2 * q.1,
        (1 - t) ^ 2 * p.2 + 2 * ((1 - t) * t) * c.2 + t ^ 2 * q.2)
  | .cubic p c1 c2 q, t =>
      ((1 - t) ^ 3 * p.1 + 3 * ((1 - t) ^ 2 * t) * c1.1 + 3 * ((1 - t) * t ^ 2) * c2.1
          + t ^ 3 * q.1,
        (1 - t) ^ 3 * p.2 + 3 * ((1 - t) ^ 2 * t) * c1.2 + 3 * ((1 - t) * t ^ 2) * c2.2
          + t ^ 3 * q.2)

/-- Whether a segment is a straight line segment. -/
def Seg.isLine : Seg → Bool
  | .line _ _ => true
  | _ => false

/-- The set of coordinates (projected by `f`, i.e. x or y) of all control
points of all segments of an outline. -/
def ctrlCoords (f : ℝ × ℝ → ℝ) (o : List Seg) : Set ℝ :=
  {x | ∃ s ∈ o, ∃ p ∈ s.ctrlPts, f p = x}

/-- The set of coordinates (projected by `f`) of all points actually on
the curves of an outline, the Bézier parameter ranging over `[0, 1]`. -/
def curveCoords (f : ℝ × ℝ → ℝ) (o : List Seg) : Set ℝ :=
  {x | ∃ s ∈ o, ∃ t ∈ Set.Icc (0 : ℝ) 1, f (s.eval t) = x}

/-- A bounding box with real-valued sides for the extent calculator. -/
structure RBox where
  xMin : ℝ
  yMin : ℝ
  xMax : ℝ
  yMax : ℝ

/-- Modelled from the spec: the control box computed by
`FT_Outline_Get_CBox` behind `FreeTypePen.cbox` is not code of this
repository; per §4.4 it "takes the minimum/maximum over all points
directly".  `b` is the control box of `o` when each side is the
least/greatest control-point coordinate. -/
def IsControlBox (o : List Seg) (b : RBox) : Prop :=
  IsLeast (ctrlCoords Prod.fst o) b.xMin ∧ IsLeast (ctrlCoords Prod.snd o) b.yMin ∧
    IsGreatest (ctrlCoords Prod.fst o) b.xMax ∧ IsGreatest (ctrlCoords Prod.snd o) b.yMax

/-- Modelled from the spec: the exact box computed by
`FT_Outline_Get_BBox` behind `FreeTypePen.bbox` is not code of this
repository; per §3 it is the "extrema over the actual curves, including
interior extrema of curved segments — tight".  `b` is the exact box of
`o` when each side is the corresponding infimum/supremum of the
coordinates of the points on the curves. -/
def IsExactBox (o : List Seg) (b : RBox) : Prop :=
  IsGLB (curveCoords Prod.fst o) b.xMin ∧ IsGLB (curveCoords Prod.snd o) b.yMin ∧
    IsLUB (curveCoords Prod.fst o) b.xMax ∧ IsLUB (curveCoords Prod.snd o) b.yMax

/-- Box `a` contains box `b`. -/
def boxContains (a b : RBox) : Prop :=
  a.xMin ≤ b.xMin ∧ a.yMin ≤ b.yMin ∧ b.xMax ≤ a.xMax ∧ b.yMax ≤ a.yMax

/-- C2: for every sequence of path commands, `beginContour` (`_moveTo`)
starts a new contour whose single point is tagged as an on-curve line
endpoint and leaves the earlier contours unchanged; on a non-empty
accumulator, `lineTo` appends one point tagged `LINE` to the last
contour, `cubicTo` (`_curveToOne`) appends exactly three points tagged
`OFFCURVE, OFFCURVE, CURVE` in that order, and `quadTo` (`_qCurveToOne`)
appends exactly two points tagged `QOFFCURVE, QCURVE` in that order, all
leaving the other contours unchanged. -/
theorem accumulator_append_shapes (cs : List Contour) (pt p1 p2 p3 q1 q2 : ℚ × ℚ)
    (h : cs ≠ []) :
    ((moveTo cs pt).getLast? = some ⟨[pt], [LINE]⟩ ∧ (moveTo cs pt).dropLast = cs) ∧
    (∃ cs2, lineTo cs pt = .ok cs2 ∧ cs2.dropLast = cs.dropLast ∧
      cs2.getLast? = some ⟨(cs.getLast h).points ++ [pt], (cs.getLast h).tags ++ [LINE]⟩) ∧
    (∃ cs3, curveToOne cs p1 p2 p3 = .ok cs3 ∧ cs3.dropLast = cs.dropLast ∧
      cs3.getLast? = some ⟨(cs.getLast h).points ++ [p1, p2, p3],
        (cs.getLast h).tags ++ [OFFCURVE, OFFCURVE, CURVE]⟩) ∧
    (∃ cs4, qCurveToOne cs q1 q2 = .ok cs4 ∧ cs4.dropLast = cs.dropLast ∧
      cs4.getLast? = some ⟨(cs.getLast h).points ++ [q1, q2],
        (cs.getLast h).tags ++ [QOFFCURVE, QCURVE]⟩) := by
  refine ⟨⟨by simp [moveTo], by simp [moveTo]⟩, ?_, ?_, ?_⟩
  · exact ⟨cs.dropLast ++ [⟨(cs.getLast h).points ++ [pt], (cs.getLast h).tags ++ [LINE]⟩],
      by simp [lineTo, List.getLast?_eq_getLast cs h], by simp, by simp⟩
  · exact ⟨cs.dropLast ++ [⟨(cs.getLast h).points ++ [p1, p2, p3],
      (cs.getLast h).tags ++ [OFFCURVE, OFFCURVE, CURVE]⟩],
      by simp [curveToOne, List.getLast?_eq_getLast cs h], by simp, by simp⟩
  · exact ⟨cs.dropLast ++ [⟨(cs.getLast h).points ++ [q1, q2],
      (cs.getLast h).tags ++ [QOFFCURVE, QCURVE]⟩],
      by simp [qCurveToOne, List.getLast?_eq_getLast cs h], by simp, by simp⟩

/-- Witness for `accumulator_append_shapes` at a concrete one-contour
accumulator. -/
theorem accumulator_append_shapes_witness :
    (moveTo [⟨[(0, 0)], [LINE]⟩] (1, 1)).getLast? = some ⟨[(1, 1)], [LINE]⟩ :=
  (accumulator_append_shapes [⟨[(0, 0)], [LINE]⟩] (1, 1) (2, 2) (3, 3) (4, 4) (5, 5) (6, 6)
    (by decide)).1.1

/-- C4: calling any append operation (`lineTo`, `cubicTo`, `quadTo`)
before any `beginContour` fails with the no-open-contour error.  The
failing `self.contours[-1]` lookup happens before any point is appended,
and in this pure embedding an erroring operation returns no new contour
list, so the accumulator (here the empty list) is left unchanged. -/
theorem append_before_begin_errors (pt p1 p2 p3 q1 q2 : ℚ × ℚ) :
    lineTo [] pt = .error .noOpenContour ∧
    curveToOne [] p1 p2 p3 = .error .noOpenContour ∧
    qCurveToOne [] q1 q2 = .error .noOpenContour :=
  ⟨rfl, rfl, rfl⟩

/-- Helper: the tags of every accumulated contour take only the four
byte values used by the encoding. -/
def tagsValid (cs : List Contour) : Prop :=
  ∀ c ∈ cs, ∀ t ∈ c.tags, t = QOFFCURVE ∨ t = LINE ∨ t = OFFCURVE ∨ t = CURVE

/-- Helper: appending points and tags to the last contour preserves
`tagsValid` when the appended tags are among the four used values. -/
theorem tagsValid_append_last (cs : List Contour) (c : Contour) (ps : List (ℚ × ℚ))
    (ts : List ℕ) (h : tagsValid cs) (hc : cs.getLast? = some c)
    (hts : ∀ t ∈ ts, t = QOFFCURVE ∨ t = LINE ∨ t = OFFCURVE ∨ t = CURVE) :
    tagsValid (cs.dropLast ++ [⟨c.points ++ ps, c.tags ++ ts⟩]) := by
  intro c2 hc2 t ht
  rcases List.mem_append.mp hc2 with h2 | h2
  · exact h c2 ((List.dropLast_sublist cs).mem h2) t ht
  · simp only [List.mem_singleton] at h2
    subst h2
    simp only [List.mem_append] at ht
    rcases ht with ht | ht
    · exact h c (List.mem_of_mem_getLast? hc) t ht
    · exact hts t ht

/-- C10: in the assembled tag encoding, the on-curve line tag and the
on-curve quadratic tag share the byte value 1, the quadratic off-curve
tag is 0 and the cubic off-curve tag is 2, so the five point
classifications collapse to four distinguishable byte values; every
append operation writes only these values, preserving the encoding. -/
theorem tag_encoding_collapse (cs : List Contour) (pt p1 p2 p3 q1 q2 : ℚ × ℚ)
    (h : tagsValid cs) :
    (LINE = 1 ∧ QCURVE = 1 ∧ QOFFCURVE = 0 ∧ OFFCURVE = 2) ∧
    ({LINE, CURVE, OFFCURVE, QCURVE, QOFFCURVE} : Finset ℕ).card = 4 ∧
    tagsValid (moveTo cs pt) ∧
    (∀ cs2, lineTo cs pt = .ok cs2 → tagsValid cs2) ∧
    (∀ cs2, curveToOne cs p1 p2 p3 = .ok cs2 → tagsValid cs2) ∧
    (∀ cs2, qCurveToOne cs q1 q2 = .ok cs2 → tagsValid cs2) := by
  refine ⟨by decide, by decide, ?_, ?_, ?_, ?_⟩
  · intro c2 hc2 t ht
    rcases List.mem_append.mp hc2 with h2 | h2
    · exact h c2 h2 t ht
    · simp only [List.mem_singleton] at h2
      subst h2
      simp only [List.mem_singleton] at ht
      subst ht
      decide
  · intro cs2 hok
    cases hg : cs.getLast? with
    | none => simp [lineTo, hg] at hok
    | some c =>
        simp only [lineTo, hg] at hok
        cases hok
        exact tagsValid_append_last cs c _ _ h hg (by decide)
  · intro cs2 hok
    cases hg : cs.getLast? with
    | none => simp [curveToOne, hg] at hok
    | some c =>
        simp only [curveToOne, hg] at hok
        cases hok
        exact tagsValid_append_last cs c _ _ h hg (by decide)
  · intro cs2 hok
    cases hg : cs.getLast? with
    | none => simp [qCurveToOne, hg] at hok
    | some c =>
        simp only [qCurveToOne, hg] at hok
        cases hok
        exact tagsValid_append_last cs c _ _ h hg (by decide)

/-- Witness for `tag_encoding_collapse` on the empty accumulator. -/
theorem tag_encoding_collapse_witness :
    ({LINE, CURVE, OFFCURVE, QCURVE, QOFFCURVE} : Finset ℕ).card = 4 :=
  (tag_encoding_collapse [] (0, 0) (0, 0) (0, 0) (0, 0) (0, 0) (0, 0)
    (by intro c hc; exact absurd hc (List.not_mem_nil c))).2.1

/-- Helper: `otRound` commutes with negation. -/
theorem otRound_neg (x : ℚ) : otRound (-x) = -otRound x := by
  unfold otRound
  rcases lt_trichotomy x 0 with h | h | h
  · rw [if_pos (by linarith), if_neg (by linarith)]
    simp
  · subst h
    norm_num
  · rw [if_neg (by linarith), if_pos (by linarith)]
    simp

/-- Helper: on nonnegative inputs `otRound` is the nearest integer with
ties rounded away from zero. -/
theorem otRound_isNearestAway_nonneg (v : ℚ) (hv : 0 ≤ v) :
    IsNearestAway v (otRound v) := by
  have hr : otRound v = ⌊v + 1 / 2⌋ := if_pos hv
  have h1 : (otRound v : ℚ) ≤ v + 1 / 2 := by
    rw [hr]; exact_mod_cast Int.floor_le _
  have h2 : v + 1 / 2 < (otRound v : ℚ) + 1 := by
    rw [hr]; exact Int.lt_floor_add_one _
  have habs : |v - otRound v| ≤ 1 / 2 := abs_le.mpr ⟨by linarith, by linarith⟩
  constructor
  · intro m
    rcases lt_trichotomy m (otRound v) with hm | hm | hm
    · have hmq : (m : ℚ) ≤ (otRound v : ℚ) - 1 := by exact_mod_cast Int.le_sub_one_of_lt hm
      have hlow : 1 / 2 ≤ v - m := by linarith
      calc |v - (m : ℚ)| ≥ v - m := le_abs_self _
        _ ≥ 1 / 2 := hlow
        _ ≥ |v - otRound v| := habs
    · rw [hm]
    · have hmq : (otRound v : ℚ) + 1 ≤ (m : ℚ) := by exact_mod_cast hm
      have hhigh : v - m < -(1 / 2) := by linarith
      have : 1 / 2 < |v - (m : ℚ)| := by
        rw [abs_sub_comm]
        calc 1 / 2 < (m : ℚ) - v := by linarith
          _ ≤ |(m : ℚ) - v| := le_abs_self _
      linarith [habs]
  · intro m hm
    rcases lt_trichotomy m (otRound v) with hlt | heq | hgt
    · have hmq : (m : ℚ) ≤ (otRound v : ℚ) - 1 := by exact_mod_cast Int.le_sub_one_of_lt hlt
      have hvm : 1 / 2 ≤ v - m := by linarith
      have habs2 : |v - (m : ℚ)| = v - m := abs_of_pos (by linarith)
      have heq2 : v - (m : ℚ) = 1 / 2 := by
        have : v - (m : ℚ) ≤ 1 / 2 := by rw [← habs2, hm]; exact habs
        linarith
      have hvr : v - (otRound v : ℚ) = -(1 / 2) := by
        have h3 : |v - (otRound v : ℚ)| = 1 / 2 := by rw [← hm, habs2, heq2]
        rcases abs_eq (by norm_num : (0 : ℚ) ≤ 1 / 2) |>.mp h3 with h4 | h4
        · linarith
        · exact h4
      have hrpos : (1 : ℤ) ≤ otRound v := by
        have : (otRound v : ℚ) = v + 1 / 2 := by linarith
        have h5 : (0 : ℚ) < (otRound v : ℚ) := by
          rw [this]; linarith
        exact_mod_cast h5
      have hmval : (m : ℚ) = (otRound v : ℚ) - 1 := by linarith
      have hmz : m = otRound v - 1 := by exact_mod_cast hmval
      rw [hmz, abs_of_nonneg (by omega : (0 : ℤ) ≤ otRound v - 1),
        abs_of_nonneg (by omega : (0 : ℤ) ≤ otRound v)]
      omega
    · rw [heq]
    · have hmq : (otRound v : ℚ) + 1 ≤ (m : ℚ) := by exact_mod_cast hgt
      have : 1 / 2 < |v - (m : ℚ)| := by
        rw [abs_sub_comm]
        calc 1 / 2 < (m : ℚ) - v := by linarith
          _ ≤ |(m : ℚ) - v| := le_abs_self _
      rw [hm] at this
      linarith [habs]

/-- Helper: `IsNearestAway` is stable under negating both arguments. -/
theorem isNearestAway_neg (v : ℚ) (r : ℤ) (h : IsNearestAway v r) :
    IsNearestAway (-v) (-r) := by
  constructor
  · intro m
    have h1 := h.1 (-m)
    have e1 : |(-v : ℚ) - ((-r : ℤ) : ℚ)| = |v - r| := by
      push_cast
      rw [show (-v : ℚ) - -(r : ℚ) = -(v - r) by ring, abs_neg]
    have e2 : |(-v : ℚ) - (m : ℚ)| = |v - ((-m : ℤ) : ℚ)| := by
      push_cast
      rw [show (-v : ℚ) - (m : ℚ) = -(v - -(m : ℚ)) by ring, abs_neg]
    rw [e1, e2]
    exact h1
  · intro m hm
    have e1 : |(-v : ℚ) - ((-r : ℤ) : ℚ)| = |v - r| := by
      push_cast
      rw [show (-v : ℚ) - -(r : ℚ) = -(v - r) by ring, abs_neg]
    have e2 : |(-v : ℚ) - (m : ℚ)| = |v - ((-m : ℤ) : ℚ)| := by
      push_cast
      rw [show (-v : ℚ) - (m : ℚ) = -(v - -(m : ℚ)) by ring, abs_neg]
    rw [e1, e2] at hm
    have := h.2 (-m) hm
    rwa [abs_neg] at this ⊢
    
/-- Helper: `otRound` rounds to the nearest integer with ties away from
zero, on all inputs. -/
theorem otRound_isNearestAway (v : ℚ) : IsNearestAway v (otRound v) := by
  rcases le_or_lt 0 v with h | h
  · exact otRound_isNearestAway_nonneg v h
  · have hneg := isNearestAway_neg (-v) (otRound (-v))
      (otRound_isNearestAway_nonneg (-v) (by linarith))
    rw [neg_neg, otRound_neg, neg_neg] at hneg
    exact hneg

/-- Helper: `otRound` is the identity on integers. -/
theorem otRound_intCast (k : ℤ) : otRound (k : ℚ) = k := by
  unfold otRound
  rcases le_or_lt 0 k with h | h
  · rw [if_pos (by exact_mod_cast h), Int.floor_int_add]
    norm_num
  · rw [if_neg (by exact_mod_cast not_le.mpr h),
      show (-(k : ℚ) + 1 / 2) = ((-k : ℤ) : ℚ) + 1 / 2 by push_cast; ring,
      Int.floor_int_add]
    norm_num


/-- Helper: the i-th entry of the assembled point array is the i-th
accumulated point (in contour order) passed through `quantPoint`. -/
theorem outlineFn_points_getElem (cs : List Contour) (o s : ℚ × ℚ) (e : Bool) (i : ℕ)
    (p : ℚ × ℚ) (hp : (cs.flatMap fun c => c.points)[i]? = some p) :
    (outlineFn cs o s e).points[i]? = some (quantPoint o s p) := by
  simp [outlineFn, List.getElem?_map, hp]

/-- C1: for every accumulated point (the i-th in contour order), the
quantizer computes the device coordinate as
`otRound((coordinate + offset) * scale * 64)` independently for x and y,
where `otRound` rounds to the nearest integer with ties away from zero
(`IsNearestAway`); and the assembly is deterministic: identical inputs
produce identical quantized output. -/
theorem quantizer_formula (cs : List Contour) (o s : ℚ × ℚ) (e : Bool) (i : ℕ)
    (p : ℚ × ℚ) (hp : (cs.flatMap fun c => c.points)[i]? = some p) :
    (outlineFn cs o s e).points[i]? =
        some (otRound ((p.1 + o.1) * s.1 * 64), otRound ((p.2 + o.2) * s.2 * 64)) ∧
      IsNearestAway ((p.1 + o.1) * s.1 * 64) (otRound ((p.1 + o.1) * s.1 * 64)) ∧
      IsNearestAway ((p.2 + o.2) * s.2 * 64) (otRound ((p.2 + o.2) * s.2 * 64)) ∧
      ∀ cs2 o2 s2 e2, cs2 = cs → o2 = o → s2 = s → e2 = e →
        outlineFn cs2 o2 s2 e2 = outlineFn cs o s e := by
  refine ⟨outlineFn_points_getElem cs o s e i p hp, otRound_isNearestAway _,
    otRound_isNearestAway _, ?_⟩
  intro cs2 o2 s2 e2 h1 h2 h3 h4
  rw [h1, h2, h3, h4]

/-- Witness for `quantizer_formula`: a single point `(3/2, -5/2)` with
offset `(1, 0)` and scale `(2, 1)` quantizes to `(320, -160)`. -/
theorem quantizer_formula_witness :
    (outlineFn [⟨[(3 / 2, -5 / 2)], [LINE]⟩] (1, 0) (2, 1) false).points[0]? =
      some (320, -160) := by
  have h := (quantizer_formula [⟨[(3 / 2, -5 / 2)], [LINE]⟩] (1, 0) (2, 1) false 0
    (3 / 2, -5 / 2) rfl).1
  rw [h]
  norm_num [otRound]

/-- C7: a coordinate already aligned to 1/64 pixel, quantized under the
identity transform (offset `(0, 0)`, scale `(1, 1)`) and then
de-quantized by the division by 64 used in `FreeTypePen.bbox`, returns
the original value exactly. -/
theorem quantize_dequantize_roundtrip (x y : ℚ)
    (hx : ∃ k : ℤ, x = k / 64) (hy : ∃ k : ℤ, y = k / 64) :
    ((quantPoint (0, 0) (1, 1) (x, y)).1 : ℚ) / 64 = x ∧
      ((quantPoint (0, 0) (1, 1) (x, y)).2 : ℚ) / 64 = y := by
  obtain ⟨kx, hkx⟩ := hx
  obtain ⟨ky, hky⟩ := hy
  subst hkx hky
  constructor
  · show ((otRound (((kx : ℚ) / 64 + 0) * 1 * 64) : ℚ)) / 64 = (kx : ℚ) / 64
    rw [show ((kx : ℚ) / 64 + 0) * 1 * 64 = (kx : ℚ) by ring, otRound_intCast]
  · show ((otRound (((ky : ℚ) / 64 + 0) * 1 * 64) : ℚ)) / 64 = (ky : ℚ) / 64
    rw [show ((ky : ℚ) / 64 + 0) * 1 * 64 = (ky : ℚ) by ring, otRound_intCast]

/-- Witness for `quantize_dequantize_roundtrip` at `(3/64, -5/64)`. -/
theorem quantize_dequantize_roundtrip_witness :
    ((quantPoint (0, 0) (1, 1) (3 / 64, -5 / 64)).1 : ℚ) / 64 = 3 / 64 ∧
      ((quantPoint (0, 0) (1, 1) (3 / 64, -5 / 64)).2 : ℚ) / 64 = -5 / 64 :=
  quantize_dequantize_roundtrip (3 / 64) (-5 / 64)
    ⟨3, by norm_num⟩ ⟨-5, by norm_num⟩

/-- C8 counterexample: the transform-and-quantize step performs no scale
validation.  With the non-positive scale `(-1, -1)` the point `(1, 2)`
is quantized to `(-64, -128)`: quantization is performed and no error of
any kind is raised, refuting the claim that a non-positive scale is
rejected before quantization (no `InvalidTransformError` exists in the
code). -/
theorem scale_not_rejected_cex :
    ((-1 : ℚ) ≤ 0 ∧ (-1 : ℚ) ≤ 0) ∧
      (outlineFn [⟨[(1, 2)], [LINE]⟩] (0, 0) (-1, -1) false).points =
        [(-64, -128)] := by
  refine ⟨by norm_num, ?_⟩
  norm_num [outlineFn, quantPoint, otRound]

/-- C8 amended: for every transform with non-positive scale, the
transform-and-quantize step performs quantization with that scale on
every accumulated point (no rejection occurs and no point is skipped). -/
theorem nonpositive_scale_quantizes (cs : List Contour) (o s : ℚ × ℚ) (e : Bool)
    (h1 : s.1 ≤ 0) (h2 : s.2 ≤ 0) :
    (outlineFn cs o s e).points.length = sumLens cs ∧
      (outlineFn cs o s e).points = (cs.flatMap fun c => c.points).map (quantPoint o s) := by
  constructor
  · simp [outlineFn, sumLens, List.length_flatMap, Function.comp_def]
  · rfl

/-- Witness for `nonpositive_scale_quantizes` at scale `(-1, -1/2)`. -/
theorem nonpositive_scale_quantizes_witness :
    (outlineFn [⟨[(1, 2)], [LINE]⟩] (0, 0) (-1, -1 / 2) false).points.length =
      sumLens [⟨[(1, 2)], [LINE]⟩] :=
  (nonpositive_scale_quantizes [⟨[(1, 2)], [LINE]⟩] (0, 0) (-1, -1 / 2) false
    (by norm_num) (by norm_num)).1

/-- Helper: `sumLens` distributes over cons. -/
theorem sumLens_cons (c : Contour) (cs : List Contour) :
    sumLens (c :: cs) = c.points.length + sumLens cs := by
  simp [sumLens]

/-- Helper: `endsFrom` produces one end index per contour. -/
theorem endsFrom_length (acc : ℤ) (cs : List Contour) :
    (endsFrom acc cs).length = cs.length := by
  induction cs generalizing acc with
  | nil => rfl
  | cons c rest ih => simp [endsFrom, ih]

/-- Helper: the i-th end index is the cumulative point count of the
first `i + 1` contours, minus one, shifted by the accumulator. -/
theorem endsFrom_getElem (cs : List Contour) (acc : ℤ) (i : ℕ) (hi : i < cs.length) :
    (endsFrom acc cs)[i]? = some (acc + (sumLens (cs.take (i + 1)) : ℤ) - 1) := by
  induction cs generalizing acc i with
  | nil => simp at hi
  | cons c rest ih =>
      cases i with
      | zero => simp [endsFrom, sumLens_cons, sumLens]
      | succ n =>
          have hn : n < rest.length := by simpa using hi
          simp only [endsFrom, List.getElem?_cons_succ]
          rw [ih (acc + c.points.length) n hn]
          congr 1
          rw [List.take_succ_cons, sumLens_cons]
          push_cast
          ring

/-- Helper: the last end index is the total point count minus one,
shifted by the accumulator. -/
theorem endsFrom_getLast (cs : List Contour) (acc : ℤ) (h : cs ≠ []) :
    (endsFrom acc cs).getLast? = some (acc + (sumLens cs : ℤ) - 1) := by
  induction cs generalizing acc with
  | nil => exact absurd rfl h
  | cons c rest ih =>
      cases rest with
      | nil => simp [endsFrom, sumLens_cons, sumLens]
      | cons c2 rest2 =>
          have hstep : endsFrom acc (c :: c2 :: rest2) =
              (acc + c.points.length - 1) ::
                endsFrom (acc + c.points.length) (c2 :: rest2) := rfl
          have htail : endsFrom (acc + (c.points.length : ℤ)) (c2 :: rest2) =
              (acc + c.points.length + c2.points.length - 1) ::
                endsFrom (acc + c.points.length + c2.points.length) rest2 := rfl
          rw [hstep, htail, List.getLast?_cons_cons, ← htail,
            ih (acc + c.points.length) (by simp)]
          simp only [sumLens_cons]
          congr 1
          push_cast
          ring

/-- Helper: with every contour non-empty, each end index lies between
the accumulator and the accumulator plus the total point count minus
one. -/
theorem endsFrom_mem_bounds (cs : List Contour) (acc : ℤ)
    (hne : ∀ c ∈ cs, c.points ≠ []) (x : ℤ) (hx : x ∈ endsFrom acc cs) :
    acc ≤ x ∧ x ≤ acc + (sumLens cs : ℤ) - 1 := by
  induction cs generalizing acc with
  | nil => simp [endsFrom] at hx
  | cons c rest ih =>
      have hlen : 1 ≤ (c.points.length : ℤ) := by
        have h0 : c.points ≠ [] := hne c (List.mem_cons_self c rest)
        have h1 : c.points.length ≠ 0 := fun h => h0 (List.length_eq_zero.mp h)
        omega
      rw [endsFrom] at hx
      rcases List.mem_cons.mp hx with rfl | hx2
      · rw [sumLens_cons]
        push_cast
        omega
      · have hb := ih (acc + c.points.length)
          (fun c2 hc2 => hne c2 (List.mem_cons_of_mem c hc2)) hx2
        rw [sumLens_cons]
        push_cast
        push_cast at hb
        omega

/-- Helper: `toInt16` is the identity on the 16-bit signed range. -/
theorem toInt16_eq_self (n : ℤ) (h1 : -(2 ^ 15) ≤ n) (h2 : n ≤ 2 ^ 15 - 1) :
    toInt16 n = n := by
  unfold toInt16
  omega

/-- Helper: mapping an elementwise-identity function leaves a list
unchanged. -/
theorem map_eq_self_of_forall {α : Type} (l : List α) (f : α → α)
    (h : ∀ x ∈ l, f x = x) : l.map f = l := by
  induction l with
  | nil => rfl
  | cons a l2 ih =>
      rw [List.map_cons, h a (List.mem_cons_self a l2),
        ih (fun x hx => h x (List.mem_cons_of_mem a hx))]

/-- C3 amended: for every sequence of closed contours whose total point
count is at most 32767 (the `FT_Outline` count fields pass through
`ctypes.c_short`), the assembled outline's total point count equals the
sum of points appended across all contours, the contour-end indices are
the cumulative per-contour point counts minus one, and the last
contour-end index equals `pointCount - 1`. -/
theorem outline_counts (cs : List Contour) (o s : ℚ × ℚ) (e : Bool)
    (h1 : cs ≠ []) (h2 : ∀ c ∈ cs, c.points ≠ []) (h3 : sumLens cs ≤ 32767) :
    (outlineFn cs o s e).nPoints = (sumLens cs : ℤ) ∧
      (∀ i, i < cs.length →
        (outlineFn cs o s e).contourEnds[i]? =
          some ((sumLens (cs.take (i + 1)) : ℤ) - 1)) ∧
      (outlineFn cs o s e).contourEnds.getLast? =
        some ((outlineFn cs o s e).nPoints - 1) := by
  have hsum : (sumLens cs : ℤ) ≤ 32767 := by exact_mod_cast h3
  have hnp : (outlineFn cs o s e).nPoints = (sumLens cs : ℤ) := by
    show toInt16 (sumLens cs) = (sumLens cs : ℤ)
    exact toInt16_eq_self _ (by omega) (by omega)
  have hends : (outlineFn cs o s e).contourEnds = endsFrom 0 cs := by
    show (endsFrom 0 cs).map toInt16 = endsFrom 0 cs
    apply map_eq_self_of_forall
    intro x hx
    have hb := endsFrom_mem_bounds cs 0 h2 x hx
    exact toInt16_eq_self x (by omega) (by omega)
  refine ⟨hnp, ?_, ?_⟩
  · intro i hi
    rw [hends, endsFrom_getElem cs 0 i hi]
    norm_num
  · rw [hends, endsFrom_getLast cs 0 h1, hnp]
    norm_num

/-- Witness for `outline_counts` on two concrete contours of 2 and 1
points. -/
theorem outline_counts_witness :
    (outlineFn [⟨[(0, 0), (1, 0)], [LINE, LINE]⟩, ⟨[(2, 3)], [LINE]⟩]
      (0, 0) (1, 1) false).nPoints =
      (sumLens [⟨[(0, 0), (1, 0)], [LINE, LINE]⟩, ⟨[(2, 3)], [LINE]⟩] : ℤ) :=
  (outline_counts [⟨[(0, 0), (1, 0)], [LINE, LINE]⟩, ⟨[(2, 3)], [LINE]⟩]
    (0, 0) (1, 1) false (by simp) (by simp) (by simp [sumLens])).1

/-- C3 counterexample: with a single closed contour of 32768 points, the
`ctypes.c_short` cast wraps the assembled `n_points` field to -32768, so
the outline's total point count no longer equals the sum of points
appended across the contours. -/
theorem outline_counts_cex :
    (outlineFn [bigContour] (0, 0) (1, 1) false).nPoints ≠
      (sumLens [bigContour] : ℤ) := by
  have hlen : bigContour.points.length = 32768 := by
    show (List.replicate 32768 ((0 : ℚ), (0 : ℚ))).length = 32768
    exact List.length_replicate 32768 _
  have h1 : sumLens [bigContour] = 32768 := by
    unfold sumLens
    rw [List.map_cons, List.map_nil, hlen]
    rfl
  show toInt16 (sumLens [bigContour]) ≠ (sumLens [bigContour] : ℤ)
  rw [h1]
  unfold toInt16
  decide

/-- C5: with auto-sizing requested (`contain=True`) and the default
identity scale, the resulting bitmap's width and height are never below
the caller-requested minimum width and height, whatever the bounding
box. -/
theorem autosize_never_shrinks (o : ℚ × ℚ) (W H : ℚ) (bbox : BBox) :
    W ≤ ((bufferSize o W H (1, 1) true bbox).2.1 : ℚ) ∧
      H ≤ ((bufferSize o W H (1, 1) true bbox).2.2 : ℚ) := by
  constructor
  · show W ≤ ((⌈max W (bbox.xMax - bbox.xMin) * 1⌉ : ℤ) : ℚ)
    calc W ≤ max W (bbox.xMax - bbox.xMin) := le_max_left _ _
      _ = max W (bbox.xMax - bbox.xMin) * 1 := (mul_one _).symm
      _ ≤ _ := Int.le_ceil _
  · show H ≤ ((⌈max H (bbox.yMax - bbox.yMin) * 1⌉ : ℤ) : ℚ)
    calc H ≤ max H (bbox.yMax - bbox.yMin) := le_max_left _ _
      _ = max H (bbox.yMax - bbox.yMin) * 1 := (mul_one _).symm
      _ ≤ _ := Int.le_ceil _

/-- C6 counterexample: with caller offset `(-1, 0)`, requested size 1x1
and bounding box `(0, 0, 1, 1)`, the `contain` logic keeps
`min(offset, xMin) = -1` and negates it, translating the outline to
`[1, 2]` horizontally while the width stays 1, so the outline's
bounding box does not fit within the resulting canvas. -/
theorem contain_fits_cex :
    ¬ bboxFits ⟨0, 0, 1, 1⟩
      (bufferSize (-1, 0) 1 1 (1, 1) true ⟨0, 0, 1, 1⟩).1
      (bufferSize (-1, 0) 1 1 (1, 1) true ⟨0, 0, 1, 1⟩).2.1
      (bufferSize (-1, 0) 1 1 (1, 1) true ⟨0, 0, 1, 1⟩).2.2 := by
  intro h
  have h2 := h.2.1
  rw [show (bufferSize (-1, 0) 1 1 (1, 1) true ⟨0, 0, 1, 1⟩).1.1 =
      -(min (-1 : ℚ) 0) from rfl,
    show (bufferSize (-1, 0) 1 1 (1, 1) true ⟨0, 0, 1, 1⟩).2.1 =
      ⌈max (1 : ℚ) (1 - 0) * 1⌉ from rfl] at h2
  norm_num at h2

/-- C6 amended: when auto-sizing is requested with identity scale and
the caller-supplied offset is at least the bounding-box minimum on each
axis, the final offset, width and height are expanded so that the
outline's bounding box fits entirely within the resulting canvas (with
a caller offset below the bounding-box minimum the box can overflow the
canvas; see the counterexample). -/
theorem contain_fits (o : ℚ × ℚ) (W H : ℚ) (bbox : BBox)
    (hx : bbox.xMin ≤ o.1) (hy : bbox.yMin ≤ o.2) :
    bboxFits bbox (bufferSize o W H (1, 1) true bbox).1
      (bufferSize o W H (1, 1) true bbox).2.1
      (bufferSize o W H (1, 1) true bbox).2.2 := by
  have hminx : min o.1 bbox.xMin = bbox.xMin := min_eq_right hx
  have hminy : min o.2 bbox.yMin = bbox.yMin := min_eq_right hy
  refine ⟨?_, ?_, ?_, ?_⟩
  · show 0 ≤ bbox.xMin + -(min o.1 bbox.xMin)
    rw [hminx]
    linarith
  · show bbox.xMax + -(min o.1 bbox.xMin) ≤
      ((⌈max W (bbox.xMax - bbox.xMin) * 1⌉ : ℤ) : ℚ)
    rw [hminx, mul_one]
    have hm : bbox.xMax - bbox.xMin ≤ max W (bbox.xMax - bbox.xMin) := le_max_right _ _
    have hc := Int.le_ceil (max W (bbox.xMax - bbox.xMin))
    linarith
  · show 0 ≤ bbox.yMin + -(min o.2 bbox.yMin)
    rw [hminy]
    linarith
  · show bbox.yMax + -(min o.2 bbox.yMin) ≤
      ((⌈max H (bbox.yMax - bbox.yMin) * 1⌉ : ℤ) : ℚ)
    rw [hminy, mul_one]
    have hm : bbox.yMax - bbox.yMin ≤ max H (bbox.yMax - bbox.yMin) := le_max_right _ _
    have hc := Int.le_ceil (max H (bbox.yMax - bbox.yMin))
    linarith

/-- Witness for `contain_fits` with offset `(0, 0)` covering bounding
box `(-1, -1, 1, 1)` on a 1x1 requested canvas. -/
theorem contain_fits_witness :
    bboxFits ⟨-1, -1, 1, 1⟩ (bufferSize (0, 0) 1 1 (1, 1) true ⟨-1, -1, 1, 1⟩).1
      (bufferSize (0, 0) 1 1 (1, 1) true ⟨-1, -1, 1, 1⟩).2.1
      (bufferSize (0, 0) 1 1 (1, 1) true ⟨-1, -1, 1, 1⟩).2.2 :=
  contain_fits (0, 0) 1 1 ⟨-1, -1, 1, 1⟩ (by norm_num) (by norm_num)

/-- Helper: a point on a line segment is bounded below by any lower
bound of its endpoints. -/
theorem line_convex_lb (t a b m : ℝ) (h0 : 0 ≤ t) (h1 : t ≤ 1)
    (ha : m ≤ a) (hb : m ≤ b) : m ≤ (1 - t) * a + t * b := by
  nlinarith [mul_nonneg (by linarith : (0 : ℝ) ≤ 1 - t) (sub_nonneg.mpr ha),
    mul_nonneg h0 (sub_nonneg.mpr hb)]

/-- Helper: a point on a line segment is bounded above by any upper
bound of its endpoints. -/
theorem line_convex_ub (t a b m : ℝ) (h0 : 0 ≤ t) (h1 : t ≤ 1)
    (ha : a ≤ m) (hb : b ≤ m) : (1 - t) * a + t * b ≤ m := by
  nlinarith [mul_nonneg (by linarith : (0 : ℝ) ≤ 1 - t) (sub_nonneg.mpr ha),
    mul_nonneg h0 (sub_nonneg.mpr hb)]

/-- Helper: a point on a quadratic Bézier is bounded below by any lower
bound of its control points. -/
theorem quad_convex_lb (t a b c m : ℝ) (h0 : 0 ≤ t) (h1 : t ≤ 1)
    (ha : m ≤ a) (hb : m ≤ b) (hc : m ≤ c) :
    m ≤ (1 - t) ^ 2 * a + 2 * ((1 - t) * t) * b + t ^ 2 * c := by
  have hs : (0 : ℝ) ≤ 1 - t := by linarith
  nlinarith [mul_nonneg (mul_nonneg hs hs) (sub_nonneg.mpr ha),
    mul_nonneg (mul_nonneg hs h0) (sub_nonneg.mpr hb),
    mul_nonneg (mul_nonneg h0 h0) (sub_nonneg.mpr hc)]

/-- Helper: a point on a quadratic Bézier is bounded above by any upper
bound of its control points. -/
theorem quad_convex_ub (t a b c m : ℝ) (h0 : 0 ≤ t) (h1 : t ≤ 1)
    (ha : a ≤ m) (hb : b ≤ m) (hc : c ≤ m) :
    (1 - t) ^ 2 * a + 2 * ((1 - t) * t) * b + t ^ 2 * c ≤ m := by
  have hs : (0 : ℝ) ≤ 1 - t := by linarith
  nlinarith [mul_nonneg (mul_nonneg hs hs) (sub_nonneg.mpr ha),
    mul_nonneg (mul_nonneg hs h0) (sub_nonneg.mpr hb),
    mul_nonneg (mul_nonneg h0 h0) (sub_nonneg.mpr hc)]

/-- Helper: a point on a cubic Bézier is bounded below by any lower
bound of its control points. -/
theorem cubic_convex_lb (t a b c d m : ℝ) (h0 : 0 ≤ t) (h1 : t ≤ 1)
    (ha : m ≤ a) (hb : m ≤ b) (hc : m ≤ c) (hd : m ≤ d) :
    m ≤ (1 - t) ^ 3 * a + 3 * ((1 - t) ^ 2 * t) * b + 3 * ((1 - t) * t ^ 2) * c
      + t ^ 3 * d := by
  have hs : (0 : ℝ) ≤ 1 - t := by linarith
  nlinarith [mul_nonneg (mul_nonneg (mul_nonneg hs hs) hs) (sub_nonneg.mpr ha),
    mul_nonneg (mul_nonneg (mul_nonneg hs hs) h0) (sub_nonneg.mpr hb),
    mul_nonneg (mul_nonneg (mul_nonneg hs h0) h0) (sub_nonneg.mpr hc),
    mul_nonneg (mul_nonneg (mul_nonneg h0 h0) h0) (sub_nonneg.mpr hd)]

/-- Helper: a point on a cubic Bézier is bounded above by any upper
bound of its control points. -/
theorem cubic_convex_ub (t a b c d m : ℝ) (h0 : 0 ≤ t) (h1 : t ≤ 1)
    (ha : a ≤ m) (hb : b ≤ m) (hc : c ≤ m) (hd : d ≤ m) :
    (1 - t) ^ 3 * a + 3 * ((1 - t) ^ 2 * t) * b + 3 * ((1 - t) * t ^ 2) * c
      + t ^ 3 * d ≤ m := by
  have hs : (0 : ℝ) ≤ 1 - t := by linarith
  nlinarith [mul_nonneg (mul_nonneg (mul_nonneg hs hs) hs) (sub_nonneg.mpr ha),
    mul_nonneg (mul_nonneg (mul_nonneg hs hs) h0) (sub_nonneg.mpr hb),
    mul_nonneg (mul_nonneg (mul_nonneg hs h0) h0) (sub_nonneg.mpr hc),
    mul_nonneg (mul_nonneg (mul_nonneg h0 h0) h0) (sub_nonneg.mpr hd)]

/-- Helper: the x-coordinate of a curve point is bounded below by any
lower bound of the x-coordinates of the segment's control points. -/
theorem seg_eval_fst_lb (s : Seg) (t : ℝ) (h0 : 0 ≤ t) (h1 : t ≤ 1) (m : ℝ)
    (hm : ∀ p ∈ s.ctrlPts, m ≤ p.1) : m ≤ (s.eval t).1 := by
  cases s with
  | line p q =>
      exact line_convex_lb t p.1 q.1 m h0 h1
        (hm p (by simp [Seg.ctrlPts])) (hm q (by simp [Seg.ctrlPts]))
  | quad p c q =>
      exact quad_convex_lb t p.1 c.1 q.1 m h0 h1 (hm p (by simp [Seg.ctrlPts]))
        (hm c (by simp [Seg.ctrlPts])) (hm q (by simp [Seg.ctrlPts]))
  | cubic p c1 c2 q =>
      exact cubic_convex_lb t p.1 c1.1 c2.1 q.1 m h0 h1 (hm p (by simp [Seg.ctrlPts]))
        (hm c1 (by simp [Seg.ctrlPts])) (hm c2 (by simp [Seg.ctrlPts]))
        (hm q (by simp [Seg.ctrlPts]))

/-- Helper: the x-coordinate of a curve point is bounded above by any
upper bound of the x-coordinates of the segment's control points. -/
theorem seg_eval_fst_ub (s : Seg) (t : ℝ) (h0 : 0 ≤ t) (h1 : t ≤ 1) (m : ℝ)
    (hm : ∀ p ∈ s.ctrlPts, p.1 ≤ m) : (s.eval t).1 ≤ m := by
  cases s with
  | line p q =>
      exact line_convex_ub t p.1 q.1 m h0 h1
        (hm p (by simp [Seg.ctrlPts])) (hm q (by simp [Seg.ctrlPts]))
  | quad p c q =>
      exact quad_convex_ub t p.1 c.1 q.1 m h0 h1 (hm p (by simp [Seg.ctrlPts]))
        (hm c (by simp [Seg.ctrlPts])) (hm q (by simp [Seg.ctrlPts]))
  | cubic p c1 c2 q =>
      exact cubic_convex_ub t p.1 c1.1 c2.1 q.1 m h0 h1 (hm p (by simp [Seg.ctrlPts]))
        (hm c1 (by simp [Seg.ctrlPts])) (hm c2 (by simp [Seg.ctrlPts]))
        (hm q (by simp [Seg.ctrlPts]))

/-- Helper: the y-coordinate of a curve point is bounded below by any
lower bound of the y-coordinates of the segment's control points. -/
theorem seg_eval_snd_lb (s : Seg) (t : ℝ) (h0 : 0 ≤ t) (h1 : t ≤ 1) (m : ℝ)
    (hm : ∀ p ∈ s.ctrlPts, m ≤ p.2) : m ≤ (s.eval t).2 := by
  cases s with
  | line p q =>
      exact line_convex_lb t p.2 q.2 m h0 h1
        (hm p (by simp [Seg.ctrlPts])) (hm q (by simp [Seg.ctrlPts]))
  | quad p c q =>
      exact quad_convex_lb t p.2 c.2 q.2 m h0 h1 (hm p (by simp [Seg.ctrlPts]))
        (hm c (by simp [Seg.ctrlPts])) (hm q (by simp [Seg.ctrlPts]))
  | cubic p c1 c2 q =>
      exact cubic_convex_lb t p.2 c1.2 c2.2 q.2 m h0 h1 (hm p (by simp [Seg.ctrlPts]))
        (hm c1 (by simp [Seg.ctrlPts])) (hm c2 (by simp [Seg.ctrlPts]))
        (hm q (by simp [Seg.ctrlPts]))

/-- Helper: the y-coordinate of a curve point is bounded above by any
upper bound of the y-coordinates of the segment's control points. -/
theorem seg_eval_snd_ub (s : Seg) (t : ℝ) (h0 : 0 ≤ t) (h1 : t ≤ 1) (m : ℝ)
    (hm : ∀ p ∈ s.ctrlPts, p.2 ≤ m) : (s.eval t).2 ≤ m := by
  cases s with
  | line p q =>
      exact line_convex_ub t p.2 q.2 m h0 h1
        (hm p (by simp [Seg.ctrlPts])) (hm q (by simp [Seg.ctrlPts]))
  | quad p c q =>
      exact quad_convex_ub t p.2 c.2 q.2 m h0 h1 (hm p (by simp [Seg.ctrlPts]))
        (hm c (by simp [Seg.ctrlPts])) (hm q (by simp [Seg.ctrlPts]))
  | cubic p c1 c2 q =>
      exact cubic_convex_ub t p.2 c1.2 c2.2 q.2 m h0 h1 (hm p (by simp [Seg.ctrlPts]))
        (hm c1 (by simp [Seg.ctrlPts])) (hm c2 (by simp [Seg.ctrlPts]))
        (hm q (by simp [Seg.ctrlPts]))

/-- Helper: a lower bound of the control x-coordinates bounds every
curve x-coordinate. -/
theorem lb_ctrl_to_curve_fst (o : List Seg) (m : ℝ)
    (hm : m ∈ lowerBounds (ctrlCoords Prod.fst o)) :
    m ∈ lowerBounds (curveCoords Prod.fst o) := by
  rintro x ⟨s, hs, t, ht, rfl⟩
  exact seg_eval_fst_lb s t ht.1 ht.2 m (fun p hp => hm ⟨s, hs, p, hp, rfl⟩)

/-- Helper: an upper bound of the control x-coordinates bounds every
curve x-coordinate. -/
theorem ub_ctrl_to_curve_fst (o : List Seg) (m : ℝ)
    (hm : m ∈ upperBounds (ctrlCoords Prod.fst o)) :
    m ∈ upperBounds (curveCoords Prod.fst o) := by
  rintro x ⟨s, hs, t, ht, rfl⟩
  exact seg_eval_fst_ub s t ht.1 ht.2 m (fun p hp => hm ⟨s, hs, p, hp, rfl⟩)

/-- Helper: a lower bound of the control y-coordinates bounds every
curve y-coordinate. -/
theorem lb_ctrl_to_curve_snd (o : List Seg) (m : ℝ)
    (hm : m ∈ lowerBounds (ctrlCoords Prod.snd o)) :
    m ∈ lowerBounds (curveCoords Prod.snd o) := by
  rintro x ⟨s, hs, t, ht, rfl⟩
  exact seg_eval_snd_lb s t ht.1 ht.2 m (fun p hp => hm ⟨s, hs, p, hp, rfl⟩)

/-- Helper: an upper bound of the control y-coordinates bounds every
curve y-coordinate. -/
theorem ub_ctrl_to_curve_snd (o : List Seg) (m : ℝ)
    (hm : m ∈ upperBounds (ctrlCoords Prod.snd o)) :
    m ∈ upperBounds (curveCoords Prod.snd o) := by
  rintro x ⟨s, hs, t, ht, rfl⟩
  exact seg_eval_snd_ub s t ht.1 ht.2 m (fun p hp => hm ⟨s, hs, p, hp, rfl⟩)

/-- Helper: the endpoints of a line segment lie on the segment, so for a
lines-only outline every control coordinate is a curve coordinate. -/
theorem ctrl_subset_curve (f : ℝ × ℝ → ℝ) (o : List Seg)
    (hl : ∀ s ∈ o, s.isLine = true) :
    ctrlCoords f o ⊆ curveCoords f o := by
  rintro x ⟨s, hs, p, hp, rfl⟩
  cases s with
  | line a b =>
      rcases (by simpa [Seg.ctrlPts] using hp : p = a ∨ p = b) with rfl | rfl
      · refine ⟨Seg.line p b, hs, 0, by norm_num, ?_⟩
        show f ((1 - 0) * p.1 + 0 * b.1, (1 - 0) * p.2 + 0 * b.2) = f p
        norm_num
      · refine ⟨Seg.line a p, hs, 1, by norm_num, ?_⟩
        show f ((1 - 1) * a.1 + 1 * p.1, (1 - 1) * a.2 + 1 * p.2) = f p
        norm_num
  | quad a b c => simpa [Seg.isLine] using hl _ hs
  | cubic a b c d => simpa [Seg.isLine] using hl _ hs

/-- C9: for outlines with at least one curved segment, the control box
(least/greatest control-point coordinates) contains the exact box
(infima/suprema of the coordinates of points on the curves); when the
outline contains only line segments the two boxes coincide. -/
theorem control_box_contains_exact_box (o : List Seg) (cb eb : RBox)
    (hcb : IsControlBox o cb) (heb : IsExactBox o eb) :
    ((∃ s ∈ o, s.isLine = false) → boxContains cb eb) ∧
      ((∀ s ∈ o, s.isLine = true) →
        cb.xMin = eb.xMin ∧ cb.yMin = eb.yMin ∧ cb.xMax = eb.xMax ∧
          cb.yMax = eb.yMax) := by
  obtain ⟨hxmin, hymin, hxmax, hymax⟩ := hcb
  obtain ⟨exmin, eymin, exmax, eymax⟩ := heb
  have c1 : cb.xMin ≤ eb.xMin := exmin.2 (lb_ctrl_to_curve_fst o cb.xMin hxmin.2)
  have c2 : cb.yMin ≤ eb.yMin := eymin.2 (lb_ctrl_to_curve_snd o cb.yMin hymin.2)
  have c3 : eb.xMax ≤ cb.xMax := exmax.2 (ub_ctrl_to_curve_fst o cb.xMax hxmax.2)
  have c4 : eb.yMax ≤ cb.yMax := eymax.2 (ub_ctrl_to_curve_snd o cb.yMax hymax.2)
  constructor
  · intro _
    exact ⟨c1, c2, c3, c4⟩
  · intro hl
    refine ⟨le_antisymm c1 ?_, le_antisymm c2 ?_, le_antisymm ?_ c3, le_antisymm ?_ c4⟩
    · exact exmin.1 (ctrl_subset_curve Prod.fst o hl hxmin.1)
    · exact eymin.1 (ctrl_subset_curve Prod.snd o hl hymin.1)
    · exact exmax.1 (ctrl_subset_curve Prod.fst o hl hxmax.1)
    · exact eymax.1 (ctrl_subset_curve Prod.snd o hl hymax.1)

/-- Witness for `control_box_contains_exact_box`: the quadratic segment
from `(0,0)` to `(1,1)` with control point `(1,0)` has control box and
exact box both `(0, 0, 1, 1)`, and the former contains the latter. -/
theorem control_box_contains_exact_box_witness :
    boxContains ⟨0, 0, 1, 1⟩ ⟨0, 0, 1, 1⟩ := by
  have hxmin : IsLeast (ctrlCoords Prod.fst [Seg.quad (0, 0) (1, 0) (1, 1)]) 0 := by
    constructor
    · exact ⟨Seg.quad (0, 0) (1, 0) (1, 1), List.mem_singleton_self _, (0, 0),
        by simp [Seg.ctrlPts], rfl⟩
    · rintro x ⟨s, hs, p, hp, rfl⟩
      rw [List.mem_singleton] at hs
      subst hs
      simp only [Seg.ctrlPts, List.mem_cons, List.mem_singleton, List.not_mem_nil,
        or_false] at hp
      rcases hp with rfl | rfl | rfl <;> norm_num
  have hymin : IsLeast (ctrlCoords Prod.snd [Seg.quad (0, 0) (1, 0) (1, 1)]) 0 := by
    constructor
    · exact ⟨Seg.quad (0, 0) (1, 0) (1, 1), List.mem_singleton_self _, (0, 0),
        by simp [Seg.ctrlPts], rfl⟩
    · rintro x ⟨s, hs, p, hp, rfl⟩
      rw [List.mem_singleton] at hs
      subst hs
      simp only [Seg.ctrlPts, List.mem_cons, List.mem_singleton, List.not_mem_nil,
        or_false] at hp
      rcases hp with rfl | rfl | rfl <;> norm_num
  have hxmax : IsGreatest (ctrlCoords Prod.fst [Seg.quad (0, 0) (1, 0) (1, 1)]) 1 := by
    constructor
    · exact ⟨Seg.quad (0, 0) (1, 0) (1, 1), List.mem_singleton_self _, (1, 0),
        by simp [Seg.ctrlPts], rfl⟩
    · rintro x ⟨s, hs, p, hp, rfl⟩
      rw [List.mem_singleton] at hs
      subst hs
      simp only [Seg.ctrlPts, List.mem_cons, List.mem_singleton, List.not_mem_nil,
        or_false] at hp
      rcases hp with rfl | rfl | rfl <;> norm_num
  have hymax : IsGreatest (ctrlCoords Prod.snd [Seg.quad (0, 0) (1, 0) (1, 1)]) 1 := by
    constructor
    · exact ⟨Seg.quad (0, 0) (1, 0) (1, 1), List.mem_singleton_self _, (1, 1),
        by simp [Seg.ctrlPts], rfl⟩
    · rintro x ⟨s, hs, p, hp, rfl⟩
      rw [List.mem_singleton] at hs
      subst hs
      simp only [Seg.ctrlPts, List.mem_cons, List.mem_singleton, List.not_mem_nil,
        or_false] at hp
      rcases hp with rfl | rfl | rfl <;> norm_num
  have exmin : IsGLB (curveCoords Prod.fst [Seg.quad (0, 0) (1, 0) (1, 1)]) 0 := by
    apply IsLeast.isGLB
    constructor
    · refine ⟨Seg.quad (0, 0) (1, 0) (1, 1), List.mem_singleton_self _, 0,
        by norm_num, ?_⟩
      show (1 - 0: ℝ) ^ 2 * 0 + 2 * ((1 - 0) * 0) * 1 + 0 ^ 2 * 1 = 0
      norm_num
    · rintro x ⟨s, hs, t, ht, rfl⟩
      rw [List.mem_singleton] at hs
      subst hs
      obtain ⟨ht0, ht1⟩ := ht
      show (0 : ℝ) ≤ (1 - t) ^ 2 * 0 + 2 * ((1 - t) * t) * 1 + t ^ 2 * 1
      nlinarith [mul_nonneg ht0 (by linarith : (0 : ℝ) ≤ 2 - t)]
  have eymin : IsGLB (curveCoords Prod.snd [Seg.quad (0, 0) (1, 0) (1, 1)]) 0 := by
    apply IsLeast.isGLB
    constructor
    · refine ⟨Seg.quad (0, 0) (1, 0) (1, 1), List.mem_singleton_self _, 0,
        by norm_num, ?_⟩
      show (1 - 0 : ℝ) ^ 2 * 0 + 2 * ((1 - 0) * 0) * 0 + 0 ^ 2 * 1 = 0
      norm_num
    · rintro x ⟨s, hs, t, ht, rfl⟩
      rw [List.mem_singleton] at hs
      subst hs
      obtain ⟨ht0, ht1⟩ := ht
      show (0 : ℝ) ≤ (1 - t) ^ 2 * 0 + 2 * ((1 - t) * t) * 0 + t ^ 2 * 1
      nlinarith [sq_nonneg t]
  have exmax : IsLUB (curveCoords Prod.fst [Seg.quad (0, 0) (1, 0) (1, 1)]) 1 := by
    apply IsGreatest.isLUB
    constructor
    · refine ⟨Seg.quad (0, 0) (1, 0) (1, 1), List.mem_singleton_self _, 1,
        by norm_num, ?_⟩
      show (1 - 1 : ℝ) ^ 2 * 0 + 2 * ((1 - 1) * 1) * 1 + 1 ^ 2 * 1 = 1
      norm_num
    · rintro x ⟨s, hs, t, ht, rfl⟩
      rw [List.mem_singleton] at hs
      subst hs
      obtain ⟨ht0, ht1⟩ := ht
      show (1 - t) ^ 2 * 0 + 2 * ((1 - t) * t) * 1 + t ^ 2 * 1 ≤ (1 : ℝ)
      nlinarith [sq_nonneg (1 - t)]
  have eymax : IsLUB (curveCoords Prod.snd [Seg.quad (0, 0) (1, 0) (1, 1)]) 1 := by
    apply IsGreatest.isLUB
    constructor
    · refine ⟨Seg.quad (0, 0) (1, 0) (1, 1), List.mem_singleton_self _, 1,
        by norm_num, ?_⟩
      show (1 - 1 : ℝ) ^ 2 * 0 + 2 * ((1 - 1) * 1) * 0 + 1 ^ 2 * 1 = 1
      norm_num
    · rintro x ⟨s, hs, t, ht, rfl⟩
      rw [List.mem_singleton] at hs
      subst hs
      obtain ⟨ht0, ht1⟩ := ht
      show (1 - t) ^ 2 * 0 + 2 * ((1 - t) * t) * 0 + t ^ 2 * 1 ≤ (1 : ℝ)
      nlinarith [mul_nonneg ht0 ht0]
  exact (control_box_contains_exact_box [Seg.quad (0, 0) (1, 0) (1, 1)]
    ⟨0, 0, 1, 1⟩ ⟨0, 0, 1, 1⟩ ⟨hxmin, hymin, hxmax, hymax⟩
    ⟨exmin, eymin, exmax, eymax⟩).1
    ⟨Seg.quad (0, 0) (1, 0) (1, 1), List.mem_singleton_self _, rfl⟩

end FreeTypePen
